import Mathlib

/-
Verification of the google-font-fetcher pipeline (src/main.rs, src/font_manifest.rs).

Rust strings and byte buffers are modelled as lists of characters; the
network and the filesystem are modelled as oracles (pure functions chosen by
the environment); each core operation is embedded as a function that returns
the list of externally visible events it performs together with an optional
error, mirroring the process-exit sites of the source.
-/

set_option maxRecDepth 4000

/-- Strings of the Rust source, modelled as lists of characters. -/
abbrev Str := List Char

/-- Fuel-indexed worker for Rust str::replace: scans left to right and
replaces every leftmost non-overlapping occurrence of the pattern.  The fuel
is always instantiated with the length of the scanned list, which suffices
for the recursion to complete. -/
def replaceFuel (pat rep : Str) : Nat → Str → Str
  | 0, s => s
  | _ + 1, [] => []
  | fuel + 1, c :: rest =>
    if pat ≠ [] ∧ pat.isPrefixOf (c :: rest) then
      rep ++ replaceFuel pat rep fuel ((c :: rest).drop pat.length)
    else
      c :: replaceFuel pat rep fuel rest

/-- Model of Rust str::replace (text.replace(pat, rep)) for a non-empty
pattern: every leftmost non-overlapping occurrence of pat in text is
replaced by rep.  All call sites in the source use literal non-empty
patterns. -/
def rustReplace (text pat rep : Str) : Str :=
  replaceFuel pat rep text.length text

/-- Whether pat occurs as a contiguous substring of s. -/
def containsSub (pat : Str) : Str → Bool
  | [] => pat.isEmpty
  | c :: rest => pat.isPrefixOf (c :: rest) || containsSub pat rest

theorem replaceFuel_of_not_contains (pat rep : Str) :
    ∀ (fuel : Nat) (s : Str), containsSub pat s = false →
      replaceFuel pat rep fuel s = s := by
  intro fuel
  induction fuel with
  | zero => intro s _; rfl
  | succ n ih =>
    intro s h
    cases s with
    | nil => rfl
    | cons c rest =>
      simp only [containsSub, Bool.or_eq_false_iff] at h
      simp only [replaceFuel, h.1, Bool.false_eq_true, and_false, if_false,
        ih rest h.2]

theorem rustReplace_of_not_contains (pat rep s : Str)
    (h : containsSub pat s = false) : rustReplace s pat rep = s :=
  replaceFuel_of_not_contains pat rep s.length s h

theorem replaceFuel_fuel_eq (pat rep : Str) :
    ∀ (fuel fuelB : Nat) (s : Str), s.length ≤ fuel → s.length ≤ fuelB →
      replaceFuel pat rep fuel s = replaceFuel pat rep fuelB s := by
  intro fuel
  induction fuel with
  | zero =>
    intro fuelB s hf _
    have : s = [] := List.eq_nil_of_length_eq_zero (Nat.le_zero.mp hf)
    subst this
    cases fuelB <;> rfl
  | succ n ih =>
    intro fuelB s hf hg
    cases s with
    | nil => cases fuelB <;> rfl
    | cons c rest =>
      cases fuelB with
      | zero => simp at hg
      | succ m =>
        simp only [List.length_cons, Nat.succ_le_succ_iff] at hf hg
        by_cases hcond : pat ≠ [] ∧ pat.isPrefixOf (c :: rest)
        · have hplen : 0 < pat.length := List.length_pos.mpr hcond.1
          have hd : ((c :: rest).drop pat.length).length ≤ rest.length := by
            simp only [List.length_drop, List.length_cons]
            omega
          simp only [replaceFuel, if_pos hcond]
          rw [ih m _ (le_trans hd hf) (le_trans hd hg)]
        · simp only [replaceFuel, if_neg hcond]
          rw [ih m rest hf hg]

theorem isPrefixOf_append_self (l s : Str) : l.isPrefixOf (l ++ s) = true := by
  simp [ List.isPrefixOf_iff_prefix, List.prefix_append]

theorem rustReplace_append_self (pat rep s : Str) (h : pat ≠ []) :
    rustReplace (pat ++ s) pat rep = rep ++ rustReplace s pat rep := by
  cases pat with
  | nil => exact absurd rfl h
  | cons p ps =>
    show replaceFuel (p :: ps) rep ((p :: ps) ++ s).length ((p :: ps) ++ s) =
      rep ++ replaceFuel (p :: ps) rep s.length s
    have hpre : (p :: ps).isPrefixOf (p :: (ps ++ s)) = true :=
      isPrefixOf_append_self (p :: ps) s
    have hlen : ((p :: ps) ++ s).length = (ps ++ s).length + 1 := by simp
    rw [hlen]
    simp only [List.cons_append, replaceFuel]
    rw [if_pos ⟨List.cons_ne_nil p ps, hpre⟩]
    simp only [List.append_eq]
    have hdrop : ((p :: (ps ++ s)).drop (p :: ps).length) = s := by
      have hx : p :: (ps ++ s) = (p :: ps) ++ s := by simp
      rw [hx, List.drop_left]
    rw [hdrop]
    congr 1
    exact replaceFuel_fuel_eq (p :: ps) rep _ _ s
      (by simp [List.length_append]) (le_refl _)

/-- The anti-JSON-hijacking byte sequence that Google Fonts puts in front of
the manifest payload: a right parenthesis, a right bracket, a right brace, an
apostrophe (character 39) and a newline. -/
def hijackGuard : Str := [')', ']', '}', Char.ofNat 39, '\n']

/-- Text processing performed by FontManifest::fetch on the response body
before JSON parsing: text.replace of the guard sequence by the empty string
(Rust replace removes every occurrence). -/
def fetchJsonText (text : Str) : Str := rustReplace text hijackGuard []

/-- Modelled from the spec: the claim-side transformation, which strips the
anti-hijacking guard only when it stands at the front of the body and leaves
the rest of the body untouched.  Used to compare the specified behaviour with
the behaviour of the source. -/
def specStripLeading (text : Str) : Str :=
  if hijackGuard.isPrefixOf text then text.drop hijackGuard.length else text

/-- A file with its contents (struct ManifestFile of the source). -/
structure ManifestFile where
  filename : Str
  contents : Str
deriving DecidableEq

/-- A reference to a file (struct ManifestFileRef of the source). -/
structure ManifestFileRef where
  filename : Str
  url : Str
deriving DecidableEq

/-- A manifest of files and file references (struct FontManifest). -/
structure FontManifest where
  files : List ManifestFile
  file_refs : List ManifestFileRef
deriving DecidableEq

/-- The outermost layer that Google Fonts returns (struct
FontManifestWrapper). -/
structure FontManifestWrapper where
  zip_name : Str
  manifest : FontManifest
deriving DecidableEq

/-- FontManifest::prepand_path_to_files: maps every filename of files and
file_refs to path followed by a slash followed by the original filename,
keeping contents and url. -/
def FontManifest.prepand_path_to_files (m : FontManifest) (path : Str) : FontManifest :=
  { files := m.files.map (fun file =>
      { filename := path ++ '/' :: file.filename, contents := file.contents }),
    file_refs := m.file_refs.map (fun file =>
      { filename := path ++ '/' :: file.filename, url := file.url }) }

/-- The manifest transformation of main: when exactly one font name was
requested, prepand_path_to_files with that name, its spaces replaced by
underscores; otherwise the manifest is returned unchanged. -/
def mainManifestTransform (args : List Str) (m : FontManifest) : FontManifest :=
  if args.length = 1 then
    m.prepand_path_to_files (rustReplace (args.headD []) [' '] ['_'])
  else m

/-- C1 counterexample: a response body that begins with the anti-hijacking
guard and contains a second copy of it.  The source (replace-all) yields the
empty text, while stripping only the leading guard leaves the second copy in
place, so the claim as stated is false. -/
theorem c1_counterexample :
    hijackGuard.isPrefixOf (hijackGuard ++ hijackGuard) = true ∧
    fetchJsonText (hijackGuard ++ hijackGuard) ≠
      specStripLeading (hijackGuard ++ hijackGuard) := by
  constructor
  · decide
  · decide

/-- C1 (amended): manifest fetching removes every occurrence of the guard
sequence from the body; for a payload that does not itself contain the guard
sequence, processing the guarded body yields exactly the payload and
processing the bare payload leaves it untouched, so both parse identically. -/
theorem c1_guard_strip (payload : Str)
    (h : containsSub hijackGuard payload = false) :
    fetchJsonText (hijackGuard ++ payload) = payload ∧
    fetchJsonText payload = payload := by
  have h2 : fetchJsonText payload = payload :=
    rustReplace_of_not_contains hijackGuard [] payload h
  refine ⟨?_, h2⟩
  unfold fetchJsonText
  rw [rustReplace_append_self hijackGuard [] payload (by decide)]
  simpa [fetchJsonText] using h2

/-- C1 witness: the amended theorem evaluated at a concrete payload. -/
theorem c1_guard_strip_witness :
    containsSub hijackGuard ("abc").data = false ∧
    fetchJsonText (hijackGuard ++ ("abc").data) = ("abc").data :=
  ⟨by decide, (c1_guard_strip ("abc").data (by decide)).1⟩

/-- C2: prepand_path_to_files keeps the entry counts of files and file_refs,
rewrites every filename of both sequences to the prefix path followed by a
slash and the original filename, and keeps every contents and url unchanged,
entry by entry and in order. -/
theorem c2_prepand_path (m : FontManifest) (p : Str) :
    ((m.prepand_path_to_files p).files.length = m.files.length) ∧
    ((m.prepand_path_to_files p).file_refs.length = m.file_refs.length) ∧
    (∀ i (h1 : i < (m.prepand_path_to_files p).files.length)
        (h2 : i < m.files.length),
      ((m.prepand_path_to_files p).files.get ⟨i, h1⟩).filename =
          p ++ '/' :: (m.files.get ⟨i, h2⟩).filename ∧
      ((m.prepand_path_to_files p).files.get ⟨i, h1⟩).contents =
          (m.files.get ⟨i, h2⟩).contents) ∧
    (∀ i (h1 : i < (m.prepand_path_to_files p).file_refs.length)
        (h2 : i < m.file_refs.length),
      ((m.prepand_path_to_files p).file_refs.get ⟨i, h1⟩).filename =
          p ++ '/' :: (m.file_refs.get ⟨i, h2⟩).filename ∧
      ((m.prepand_path_to_files p).file_refs.get ⟨i, h1⟩).url =
          (m.file_refs.get ⟨i, h2⟩).url) := by
  refine ⟨by simp [FontManifest.prepand_path_to_files],
    by simp [FontManifest.prepand_path_to_files], ?_, ?_⟩
  · intro i h1 h2
    simp [FontManifest.prepand_path_to_files, List.get_eq_getElem]
  · intro i h1 h2
    simp [FontManifest.prepand_path_to_files, List.get_eq_getElem]

/-- C2 witness: the theorem evaluated on a one-entry manifest, index zero. -/
theorem c2_prepand_path_witness :
    (0 < ((FontManifest.mk [ManifestFile.mk ("a").data ("x").data]
        [ManifestFileRef.mk ("b").data ("u").data]).prepand_path_to_files
        ("P").data).files.length) ∧
    (((FontManifest.mk [ManifestFile.mk ("a").data ("x").data]
        [ManifestFileRef.mk ("b").data ("u").data]).prepand_path_to_files
        ("P").data).files.get ⟨0, by decide⟩).filename =
      ("P").data ++ '/' :: ("a").data :=
  ⟨by decide,
    ((c2_prepand_path
      (FontManifest.mk [ManifestFile.mk ("a").data ("x").data]
        [ManifestFileRef.mk ("b").data ("u").data]) ("P").data).2.2.1 0
      (by decide) (by decide)).1⟩

/-- C3: the orchestrator transform of main applies the path step exactly for
a single requested name: with one name the manifest is prefixed with that
name, its spaces replaced by underscores, and with two or more names the
manifest passes through unchanged. -/
theorem c3_single_font_transform (m : FontManifest) :
    (∀ a : Str, mainManifestTransform [a] m =
        m.prepand_path_to_files (rustReplace a [' '] ['_'])) ∧
    (∀ args : List Str, 2 ≤ args.length → mainManifestTransform args m = m) := by
  constructor
  · intro a
    simp [mainManifestTransform]
  · intro args hlen
    unfold mainManifestTransform
    rw [if_neg (by omega)]

/-- C3 witness: the theorem evaluated at a one-name list (with a space in the
name) and at a two-name list. -/
theorem c3_single_font_transform_witness :
    (mainManifestTransform [("Open Sans").data]
        (FontManifest.mk [ManifestFile.mk ("a").data ("x").data] []) =
      (FontManifest.mk [ManifestFile.mk ("a").data ("x").data]
          []).prepand_path_to_files ("Open_Sans").data) ∧
    (2 ≤ ([("A").data, ("B").data] : List Str).length) ∧
    (mainManifestTransform [("A").data, ("B").data]
        (FontManifest.mk [ManifestFile.mk ("a").data ("x").data] []) =
      FontManifest.mk [ManifestFile.mk ("a").data ("x").data] []) := by
  refine ⟨?_, by decide, ?_⟩
  · have h := (c3_single_font_transform
      (FontManifest.mk [ManifestFile.mk ("a").data ("x").data] [])).1
      ("Open Sans").data
    rw [h]
    have : rustReplace ("Open Sans").data [' '] ['_'] = ("Open_Sans").data := by
      decide
    rw [this]
  · exact (c3_single_font_transform
      (FontManifest.mk [ManifestFile.mk ("a").data ("x").data] [])).2
      [("A").data, ("B").data] (by decide)

/-- Fuel-indexed splitting of a path into its non-empty slash-separated
pieces.  The fuel is always instantiated with the length of the list. -/
def piecesFuel : Nat → Str → List Str
  | 0, _ => []
  | fuel + 1, s =>
    match s with
    | [] => []
    | c :: rest =>
      if c = '/' then piecesFuel fuel rest
      else (c :: rest.takeWhile (fun d => !decide (d = '/'))) ::
        piecesFuel fuel (rest.dropWhile (fun d => !decide (d = '/')))

/-- The non-empty slash-separated pieces of a path string. -/
def pathPieces (s : Str) : List Str := piecesFuel s.length s

/-- Modelled from Rust std Path::parent on Unix: a path has a parent exactly
when its component list is neither empty nor the root alone, that is when it
has a piece other than a lone dot, or it is a relative path whose first piece
is a lone dot (a leading CurDir component). -/
def pathHasParent (s : Str) : Bool :=
  (pathPieces s).any (fun p => !decide (p = ['.'])) ||
    (!decide (s.head? = some '/') && decide ((pathPieces s).head? = some ['.']))

/-- Remove the trailing slashes of a path string. -/
def dropTrailingSlashes (s : Str) : Str :=
  (s.reverse.dropWhile (fun c => decide (c = '/'))).reverse

/-- Remove the last component of a path string together with the separators
around it. -/
def chopLastComponent (s : Str) : Str :=
  ((dropTrailingSlashes s).reverse.dropWhile (fun c => !decide (c = '/'))).reverse

/-- Modelled from Rust std Path::parent on Unix: the path without its final
component when one exists, and none for the empty path or a bare root. -/
def pathParent (s : Str) : Option Str :=
  if pathHasParent s then
    some (
      let u := chopLastComponent s
      let v := dropTrailingSlashes u
      if v = [] then (if u = [] then [] else ['/']) else v)
  else none

theorem pathParent_isSome (s : Str) :
    (pathParent s).isSome = pathHasParent s := by
  unfold pathParent
  split <;> simp_all

/-- Externally visible events of a run: filesystem operations and network
requests, in the order the source performs them. -/
inductive Ev where
  | dirCreated (dir : Str)
  | fileCreated (path : Str)
  | fileWritten (path : Str) (data : Str)
  | refRequested (url : Str)
  | specimenRequested (url : Str)
  | manifestRequested (url : Str)
deriving DecidableEq

/-- Failure kinds of the pipeline, one per process-exit site of the source
(the source prints a distinct message at each site and exits). -/
inductive RunError where
  | invalidPath (path : Str)
  | dirCreateFailed (dir : Str)
  | fileCreateFailed (path : Str)
  | fileWriteFailed (path : Str)
  | networkError (url : Str)
  | invalidManifest
  | invalidFontName (names : List Str)
  | noFontsSpecified
deriving DecidableEq

/-- Filesystem oracle: the environment decides whether create_dir_all on a
given directory, File::create on a given path and write_all on a given path
succeed. -/
structure FsOracle where
  createDirOk : Str → Bool
  createFileOk : Str → Bool
  writeOk : Str → Bool

/-- An HTTP response: a status code and, when reading the body succeeds, its
bytes. -/
structure HttpResp where
  status : Nat
  body : Option Str
deriving DecidableEq

/-- Network oracle: the environment maps each requested URL either to a
response or to a transport failure (none). -/
structure NetOracle where
  get : Str → Option HttpResp

/-- Model of reqwest StatusCode::is_success: the status lies in 200..=299. -/
def statusIsSuccess (status : Nat) : Bool := decide (200 ≤ status ∧ status < 300)

/-- One inline-file write of FontManifest::write_files (also the write part
of fetch_files_from_refs): build base/filename, take its parent (exit on
none), create_dir_all the parent, File::create the file, write the data. -/
def writeEntry (base : Str) (fso : FsOracle) (filename contents : Str) :
    List Ev × Option RunError :=
  let raw := base ++ '/' :: filename
  match pathParent raw with
  | none => ([], some (RunError.invalidPath raw))
  | some parent =>
    if fso.createDirOk parent then
      if fso.createFileOk raw then
        if fso.writeOk raw then
          ([Ev.dirCreated parent, Ev.fileCreated raw, Ev.fileWritten raw contents],
            none)
        else ([Ev.dirCreated parent, Ev.fileCreated raw],
          some (RunError.fileWriteFailed raw))
      else ([Ev.dirCreated parent], some (RunError.fileCreateFailed raw))
    else ([], some (RunError.dirCreateFailed parent))

/-- The loop of FontManifest::write_files over the files list: each entry is
written in order and the first failure aborts the loop. -/
def writeFilesList (base : Str) (fso : FsOracle) :
    List ManifestFile → List Ev × Option RunError
  | [] => ([], none)
  | f :: fs =>
    match writeEntry base fso f.filename f.contents with
    | (evs, some e) => (evs, some e)
    | (evs, none) =>
      let rest := writeFilesList base fso fs
      (evs ++ rest.fst, rest.snd)

/-- FontManifest::write_files. -/
def FontManifest.write_files (m : FontManifest) (base : Str) (fso : FsOracle) :
    List Ev × Option RunError :=
  writeFilesList base fso m.files

/-- One step of FontManifest::fetch_files_from_refs: GET the url (exit on
transport error, non-success status or body-read failure), then write the
received bytes to base/filename exactly as write_files does. -/
def fetchOneRef (base : Str) (net : NetOracle) (fso : FsOracle)
    (r : ManifestFileRef) : List Ev × Option RunError :=
  match net.get r.url with
  | none => ([Ev.refRequested r.url], some (RunError.networkError r.url))
  | some resp =>
    if statusIsSuccess resp.status then
      match resp.body with
      | none => ([Ev.refRequested r.url], some (RunError.networkError r.url))
      | some bytes =>
        let w := writeEntry base fso r.filename bytes
        (Ev.refRequested r.url :: w.fst, w.snd)
    else ([Ev.refRequested r.url], some (RunError.networkError r.url))

/-- The loop of FontManifest::fetch_files_from_refs over the file_refs list:
entries are processed in manifest order and the first failure aborts the
loop. -/
def fetchRefsList (base : Str) (net : NetOracle) (fso : FsOracle) :
    List ManifestFileRef → List Ev × Option RunError
  | [] => ([], none)
  | r :: rs =>
    match fetchOneRef base net fso r with
    | (evs, some e) => (evs, some e)
    | (evs, none) =>
      let rest := fetchRefsList base net fso rs
      (evs ++ rest.fst, rest.snd)

/-- FontManifest::fetch_files_from_refs. -/
def FontManifest.fetch_files_from_refs (m : FontManifest) (base : Str)
    (net : NetOracle) (fso : FsOracle) : List Ev × Option RunError :=
  fetchRefsList base net fso m.file_refs

/-- Whether the network part of one reference download fails: transport
error, non-success status, or body-read failure. -/
def refNetFails (net : NetOracle) (r : ManifestFileRef) : Bool :=
  match net.get r.url with
  | none => true
  | some resp => !statusIsSuccess resp.status || resp.body.isNone

/-- The concatenated event traces of a list of reference downloads. -/
def refTraces (base : Str) (net : NetOracle) (fso : FsOracle)
    (rs : List ManifestFileRef) : List Ev :=
  rs.foldr (fun r acc => (fetchOneRef base net fso r).fst ++ acc) []

/-- The specimen URL of FontManifest::check_if_valid_font: the per-font
catalog detail endpoint, spaces of the name replaced by plus signs. -/
def specimenUrl (font_name : Str) : Str :=
  ("https://fonts.google.com/specimen/").data ++ rustReplace font_name [' '] ['+']

/-- FontManifest::check_if_valid_font: GET the specimen URL and return true
iff the request succeeded and the status is a success status. -/
def FontManifest.check_if_valid_font (net : NetOracle) (font_name : Str) : Bool :=
  match net.get (specimenUrl font_name) with
  | none => false
  | some response => statusIsSuccess response.status

/-- The download-list URL of FontManifest::fetch: the query carries the
comma-joined requested names. -/
def downloadListUrl (font_names : List Str) : Str :=
  ("https://fonts.google.com/download/list?family=").data ++
    List.intercalate [','] font_names

/-- The collaborators of a whole run: the network, the filesystem and the
JSON decoder (serde_json::from_str on the wrapper shape, modelled as an
oracle that either decodes a wrapper or fails). -/
structure Env where
  net : NetOracle
  fso : FsOracle
  decodeWrapper : Str → Option FontManifestWrapper

/-- The fetch pipeline of main after argument parsing: reject an empty name
list, validate every name against the catalog, collect all invalid names and
stop when any exist, fetch and decode the manifest, apply the single-font
path transform, write the inline files, then download the references. -/
def mainRun (env : Env) (base : Str) (args : List Str) :
    List Ev × Option RunError :=
  if args.isEmpty then ([], some RunError.noFontsSpecified)
  else
    let specEvs := args.map (fun a => Ev.specimenRequested (specimenUrl a))
    let invalid := args.filter (fun a => !(FontManifest.check_if_valid_font env.net a))
    if !invalid.isEmpty then (specEvs, some (RunError.invalidFontName invalid))
    else
      let url := downloadListUrl args
      match env.net.get url with
      | none => (specEvs ++ [Ev.manifestRequested url],
          some (RunError.networkError url))
      | some resp =>
        match resp.body with
        | none => (specEvs ++ [Ev.manifestRequested url],
            some (RunError.networkError url))
        | some text =>
          match env.decodeWrapper (fetchJsonText text) with
          | none => (specEvs ++ [Ev.manifestRequested url],
              some RunError.invalidManifest)
          | some wrapper =>
            let m := mainManifestTransform args wrapper.manifest
            let w := m.write_files base env.fso
            match w.snd with
            | some e => (specEvs ++ [Ev.manifestRequested url] ++ w.fst, some e)
            | none =>
              let r := m.fetch_files_from_refs base env.net env.fso
              (specEvs ++ [Ev.manifestRequested url] ++ w.fst ++ r.fst, r.snd)

/-- Filesystem oracle on which every operation succeeds. -/
def allOkFs : FsOracle :=
  FsOracle.mk (fun _ => true) (fun _ => true) (fun _ => true)

/-- Network oracle on which every GET returns status 200 with an empty
body. -/
def allOkNet : NetOracle := NetOracle.mk (fun _ => some (HttpResp.mk 200 (some [])))

theorem fetchOneRef_of_netFails (base : Str) (net : NetOracle) (fso : FsOracle)
    (r : ManifestFileRef) (h : refNetFails net r = true) :
    fetchOneRef base net fso r =
      ([Ev.refRequested r.url], some (RunError.networkError r.url)) := by
  unfold refNetFails at h
  unfold fetchOneRef
  cases hg : net.get r.url with
  | none => rfl
  | some resp =>
    rw [hg] at h
    by_cases hs : statusIsSuccess resp.status
    · simp only [hs, Bool.not_true, Bool.false_or] at h
      rw [Option.isNone_iff_eq_none] at h
      simp [hs, h]
    · simp [hs]

theorem fetchRefsList_abort (base : Str) (net : NetOracle) (fso : FsOracle) :
    ∀ (pre : List ManifestFileRef) (r : ManifestFileRef)
      (post : List ManifestFileRef),
      (∀ x ∈ pre, (fetchOneRef base net fso x).snd = none) →
      refNetFails net r = true →
      fetchRefsList base net fso (pre ++ r :: post) =
        (refTraces base net fso pre ++ [Ev.refRequested r.url],
          some (RunError.networkError r.url)) := by
  intro pre
  induction pre with
  | nil =>
    intro r post _ hfail
    simp only [List.nil_append, refTraces, List.foldr_nil]
    show fetchRefsList base net fso (r :: post) = _
    unfold fetchRefsList
    rw [fetchOneRef_of_netFails base net fso r hfail]
  | cons x xs ih =>
    intro r post hpre hfail
    have hx : (fetchOneRef base net fso x).snd = none := hpre x (by simp)
    have hxs : ∀ y ∈ xs, (fetchOneRef base net fso y).snd = none :=
      fun y hy => hpre y (by simp [hy])
    rcases hE : fetchOneRef base net fso x with ⟨evs, err⟩
    have herr : err = none := by rw [hE] at hx; exact hx
    subst herr
    show fetchRefsList base net fso (x :: (xs ++ r :: post)) = _
    unfold fetchRefsList
    rw [hE]
    simp only
    rw [ih r post hxs hfail]
    simp only [refTraces, List.foldr_cons, hE]
    simp [refTraces]

/-- C4: the reference downloader processes file_refs in manifest order; when
the references before a failing one all succeed and the failing one has a
transport error, a non-success status or a body-read failure, the run ends
with a network error for that url, the trace is exactly the traces of the
earlier references followed by the failing request, and nothing after the
failing reference is requested or written. -/
theorem c4_refs_fail_fast (m : FontManifest) (base : Str) (net : NetOracle)
    (fso : FsOracle) (pre : List ManifestFileRef) (r : ManifestFileRef)
    (post : List ManifestFileRef)
    (hsplit : m.file_refs = pre ++ r :: post)
    (hpre : ∀ x ∈ pre, (fetchOneRef base net fso x).snd = none)
    (hfail : refNetFails net r = true) :
    m.fetch_files_from_refs base net fso =
      (refTraces base net fso pre ++ [Ev.refRequested r.url],
        some (RunError.networkError r.url)) := by
  unfold FontManifest.fetch_files_from_refs
  rw [hsplit]
  exact fetchRefsList_abort base net fso pre r post hpre hfail

/-- Network oracle of the C4 witness: url u1 succeeds with a one-byte body,
url u2 returns status 404, any other url succeeds with an empty body. -/
def c4Net : NetOracle :=
  NetOracle.mk (fun u =>
    if u = ("u1").data then some (HttpResp.mk 200 (some ("z").data))
    else if u = ("u2").data then some (HttpResp.mk 404 (some []))
    else some (HttpResp.mk 200 (some [])))

/-- C4 witness: a three-reference manifest whose second reference gets a 404
aborts after requesting exactly the first two urls. -/
theorem c4_refs_fail_fast_witness :
    (FontManifest.mk []
        [ManifestFileRef.mk ("f1").data ("u1").data,
         ManifestFileRef.mk ("f2").data ("u2").data,
         ManifestFileRef.mk ("f3").data ("u3").data]).fetch_files_from_refs
      ("b").data c4Net allOkFs =
      (refTraces ("b").data c4Net allOkFs
          [ManifestFileRef.mk ("f1").data ("u1").data] ++
        [Ev.refRequested ("u2").data],
        some (RunError.networkError ("u2").data)) :=
  c4_refs_fail_fast
    (FontManifest.mk []
      [ManifestFileRef.mk ("f1").data ("u1").data,
       ManifestFileRef.mk ("f2").data ("u2").data,
       ManifestFileRef.mk ("f3").data ("u3").data])
    ("b").data c4Net allOkFs
    [ManifestFileRef.mk ("f1").data ("u1").data]
    (ManifestFileRef.mk ("f2").data ("u2").data)
    [ManifestFileRef.mk ("f3").data ("u3").data]
    (by decide) (by decide) (by decide)

/-- C7: check_if_valid_font returns true exactly when the GET to the
specimen endpoint (spaces of the name replaced by plus signs) returns a
response whose status is a success status; every transport failure yields
false and the check never reports an error. -/
theorem c7_check_valid_font (net : NetOracle) (font_name : Str) :
    FontManifest.check_if_valid_font net font_name = true ↔
      ∃ r : HttpResp,
        net.get (("https://fonts.google.com/specimen/").data ++
          rustReplace font_name [' '] ['+']) = some r ∧
        statusIsSuccess r.status = true := by
  unfold FontManifest.check_if_valid_font specimenUrl
  cases hg : net.get (("https://fonts.google.com/specimen/").data ++
      rustReplace font_name [' '] ['+']) with
  | none => simp [hg]
  | some r => simp [hg]

/-- C10: on a manifest whose files and file_refs are both empty, write_files
and fetch_files_from_refs both succeed, produce no filesystem event and issue
no network request. -/
theorem c10_empty_manifest (m : FontManifest) (h1 : m.files = [])
    (h2 : m.file_refs = []) (base : Str) (net : NetOracle) (fso : FsOracle) :
    m.write_files base fso = ([], none) ∧
    m.fetch_files_from_refs base net fso = ([], none) := by
  unfold FontManifest.write_files FontManifest.fetch_files_from_refs
  rw [h1, h2]
  exact ⟨rfl, rfl⟩

/-- C10 witness: the theorem evaluated at the literal empty manifest. -/
theorem c10_empty_manifest_witness :
    (FontManifest.mk [] []).write_files ("b").data allOkFs = ([], none) ∧
    (FontManifest.mk [] []).fetch_files_from_refs ("b").data allOkNet allOkFs =
      ([], none) :=
  c10_empty_manifest (FontManifest.mk [] []) rfl rfl ("b").data allOkNet allOkFs

theorem writeEntry_eq_invalid (base : Str) (fso : FsOracle) (fn data : Str)
    (hp : pathParent (base ++ '/' :: fn) = none) :
    writeEntry base fso fn data =
      ([], some (RunError.invalidPath (base ++ '/' :: fn))) := by
  unfold writeEntry
  simp only [hp]

theorem writeEntry_eq_dirFail (base : Str) (fso : FsOracle) (fn data : Str)
    (parent : Str) (hp : pathParent (base ++ '/' :: fn) = some parent)
    (h1 : fso.createDirOk parent = false) :
    writeEntry base fso fn data = ([], some (RunError.dirCreateFailed parent)) := by
  unfold writeEntry
  simp only [hp]
  simp [h1]

theorem writeEntry_eq_createFail (base : Str) (fso : FsOracle) (fn data : Str)
    (parent : Str) (hp : pathParent (base ++ '/' :: fn) = some parent)
    (h1 : fso.createDirOk parent = true)
    (h2 : fso.createFileOk (base ++ '/' :: fn) = false) :
    writeEntry base fso fn data =
      ([Ev.dirCreated parent],
        some (RunError.fileCreateFailed (base ++ '/' :: fn))) := by
  unfold writeEntry
  simp only [hp]
  simp [h1, h2]

theorem writeEntry_eq_writeFail (base : Str) (fso : FsOracle) (fn data : Str)
    (parent : Str) (hp : pathParent (base ++ '/' :: fn) = some parent)
    (h1 : fso.createDirOk parent = true)
    (h2 : fso.createFileOk (base ++ '/' :: fn) = true)
    (h3 : fso.writeOk (base ++ '/' :: fn) = false) :
    writeEntry base fso fn data =
      ([Ev.dirCreated parent, Ev.fileCreated (base ++ '/' :: fn)],
        some (RunError.fileWriteFailed (base ++ '/' :: fn))) := by
  unfold writeEntry
  simp only [hp]
  simp [h1, h2, h3]

theorem writeEntry_eq_ok (base : Str) (fso : FsOracle) (fn data : Str)
    (parent : Str) (hp : pathParent (base ++ '/' :: fn) = some parent)
    (h1 : fso.createDirOk parent = true)
    (h2 : fso.createFileOk (base ++ '/' :: fn) = true)
    (h3 : fso.writeOk (base ++ '/' :: fn) = true) :
    writeEntry base fso fn data =
      ([Ev.dirCreated parent, Ev.fileCreated (base ++ '/' :: fn),
        Ev.fileWritten (base ++ '/' :: fn) data], none) := by
  unfold writeEntry
  simp only [hp]
  simp [h1, h2, h3]

theorem writeEntry_invalidPath_iff (base : Str) (fso : FsOracle)
    (fn data p : Str) :
    (writeEntry base fso fn data).snd = some (RunError.invalidPath p) ↔
      (pathParent (base ++ '/' :: fn) = none ∧ p = base ++ '/' :: fn) := by
  cases hp : pathParent (base ++ '/' :: fn) with
  | none => rw [writeEntry_eq_invalid base fso fn data hp]; simp [eq_comm]
  | some parent =>
    by_cases h1 : fso.createDirOk parent
    · by_cases h2 : fso.createFileOk (base ++ '/' :: fn)
      · by_cases h3 : fso.writeOk (base ++ '/' :: fn)
        · rw [writeEntry_eq_ok base fso fn data parent hp h1 h2 h3]; simp [hp]
        · rw [writeEntry_eq_writeFail base fso fn data parent hp h1 h2
            (by simpa using h3)]
          simp [hp]
      · rw [writeEntry_eq_createFail base fso fn data parent hp h1
          (by simpa using h2)]
        simp [hp]
    · rw [writeEntry_eq_dirFail base fso fn data parent hp (by simpa using h1)]
      simp [hp]

theorem writeEntry_dirCreate_iff (base : Str) (fso : FsOracle)
    (fn data : Str) :
    (∃ d, (writeEntry base fso fn data).snd =
        some (RunError.dirCreateFailed d)) ↔
      (∃ parent, pathParent (base ++ '/' :: fn) = some parent ∧
        fso.createDirOk parent = false) := by
  cases hp : pathParent (base ++ '/' :: fn) with
  | none => rw [writeEntry_eq_invalid base fso fn data hp]; simp
  | some parent =>
    by_cases h1 : fso.createDirOk parent
    · have hside : ¬∃ p2, some parent = some p2 ∧ fso.createDirOk p2 = false := by
        rintro ⟨p2, hp2, hf⟩
        simp only [Option.some.injEq] at hp2
        subst hp2
        simp [h1] at hf
      by_cases h2 : fso.createFileOk (base ++ '/' :: fn)
      · by_cases h3 : fso.writeOk (base ++ '/' :: fn)
        · rw [writeEntry_eq_ok base fso fn data parent hp h1 h2 h3]
          simp only [iff_false_intro hside]
          simp
        · rw [writeEntry_eq_writeFail base fso fn data parent hp h1 h2
            (by simpa using h3)]
          simp only [iff_false_intro hside]
          simp
      · rw [writeEntry_eq_createFail base fso fn data parent hp h1
          (by simpa using h2)]
        simp only [iff_false_intro hside]
        simp
    · rw [writeEntry_eq_dirFail base fso fn data parent hp (by simpa using h1)]
      constructor
      · rintro _
        exact ⟨parent, rfl, by simpa using h1⟩
      · rintro _
        exact ⟨parent, rfl⟩

theorem writeEntry_fileFail_iff (base : Str) (fso : FsOracle)
    (fn data : Str) :
    (∃ q, (writeEntry base fso fn data).snd =
          some (RunError.fileCreateFailed q) ∨
        (writeEntry base fso fn data).snd =
          some (RunError.fileWriteFailed q)) ↔
      (∃ parent, pathParent (base ++ '/' :: fn) = some parent ∧
        fso.createDirOk parent = true ∧
        (fso.createFileOk (base ++ '/' :: fn) = false ∨
          (fso.createFileOk (base ++ '/' :: fn) = true ∧
            fso.writeOk (base ++ '/' :: fn) = false))) := by
  cases hp : pathParent (base ++ '/' :: fn) with
  | none => rw [writeEntry_eq_invalid base fso fn data hp]; simp
  | some parent =>
    by_cases h1 : fso.createDirOk parent
    · by_cases h2 : fso.createFileOk (base ++ '/' :: fn)
      · by_cases h3 : fso.writeOk (base ++ '/' :: fn)
        · rw [writeEntry_eq_ok base fso fn data parent hp h1 h2 h3]
          simp [h2, h3]
        · rw [writeEntry_eq_writeFail base fso fn data parent hp h1 h2
            (by simpa using h3)]
          constructor
          · rintro _
            exact ⟨parent, rfl, h1, Or.inr ⟨h2, by simpa using h3⟩⟩
          · rintro _
            exact ⟨base ++ '/' :: fn, Or.inr rfl⟩
      · rw [writeEntry_eq_createFail base fso fn data parent hp h1
          (by simpa using h2)]
        constructor
        · rintro _
          exact ⟨parent, rfl, h1, Or.inl (by simpa using h2)⟩
        · rintro _
          exact ⟨base ++ '/' :: fn, Or.inl rfl⟩
    · rw [writeEntry_eq_dirFail base fso fn data parent hp (by simpa using h1)]
      constructor
      · rintro ⟨q, hq | hq⟩ <;> simp at hq
      · rintro ⟨p2, hp2, hd, _⟩
        simp only [Option.some.injEq] at hp2
        subst hp2
        exact absurd hd (by simpa using h1)

theorem writeEntry_success_shape (base : Str) (fso : FsOracle) (fn data : Str)
    (h : (writeEntry base fso fn data).snd = none) :
    ∃ parent, pathParent (base ++ '/' :: fn) = some parent ∧
      (writeEntry base fso fn data).fst =
        [Ev.dirCreated parent, Ev.fileCreated (base ++ '/' :: fn),
          Ev.fileWritten (base ++ '/' :: fn) data] := by
  cases hp : pathParent (base ++ '/' :: fn) with
  | none => rw [writeEntry_eq_invalid base fso fn data hp] at h; simp at h
  | some parent =>
    by_cases h1 : fso.createDirOk parent
    · by_cases h2 : fso.createFileOk (base ++ '/' :: fn)
      · by_cases h3 : fso.writeOk (base ++ '/' :: fn)
        · rw [writeEntry_eq_ok base fso fn data parent hp h1 h2 h3]
          exact ⟨parent, rfl, rfl⟩
        · rw [writeEntry_eq_writeFail base fso fn data parent hp h1 h2
            (by simpa using h3)] at h
          simp at h
      · rw [writeEntry_eq_createFail base fso fn data parent hp h1
          (by simpa using h2)] at h
        simp at h
    · rw [writeEntry_eq_dirFail base fso fn data parent hp (by simpa using h1)] at h
      simp at h

theorem writeFilesList_cons_abort (base : Str) (fso : FsOracle)
    (f : ManifestFile) (fs : List ManifestFile) (e : RunError)
    (h : (writeEntry base fso f.filename f.contents).snd = some e) :
    writeFilesList base fso (f :: fs) =
      ((writeEntry base fso f.filename f.contents).fst, some e) := by
  rcases hE : writeEntry base fso f.filename f.contents with ⟨evs, err⟩
  rw [hE] at h
  simp only at h
  subst h
  unfold writeFilesList
  rw [hE]

/-- C6: per manifest entry the materializer fails with InvalidPath exactly
when the computed destination path has no parent, with DirectoryCreateFailed
exactly when creating the parent directory fails, and with a file-creation or
file-write failure exactly when File::create or write_all fails; any failure
on an entry aborts the loop, which returns that entry's events and error
regardless of the remaining entries. -/
theorem c6_write_failure_modes (base : Str) (fso : FsOracle)
    (f : ManifestFile) (fs : List ManifestFile) :
    ((writeEntry base fso f.filename f.contents).snd =
        some (RunError.invalidPath (base ++ '/' :: f.filename)) ↔
      pathParent (base ++ '/' :: f.filename) = none) ∧
    ((∃ d, (writeEntry base fso f.filename f.contents).snd =
        some (RunError.dirCreateFailed d)) ↔
      (∃ parent, pathParent (base ++ '/' :: f.filename) = some parent ∧
        fso.createDirOk parent = false)) ∧
    ((∃ q, (writeEntry base fso f.filename f.contents).snd =
          some (RunError.fileCreateFailed q) ∨
        (writeEntry base fso f.filename f.contents).snd =
          some (RunError.fileWriteFailed q)) ↔
      (∃ parent, pathParent (base ++ '/' :: f.filename) = some parent ∧
        fso.createDirOk parent = true ∧
        (fso.createFileOk (base ++ '/' :: f.filename) = false ∨
          (fso.createFileOk (base ++ '/' :: f.filename) = true ∧
            fso.writeOk (base ++ '/' :: f.filename) = false)))) ∧
    (∀ e, (writeEntry base fso f.filename f.contents).snd = some e →
      writeFilesList base fso (f :: fs) =
        ((writeEntry base fso f.filename f.contents).fst, some e)) := by
  refine ⟨?_, writeEntry_dirCreate_iff base fso f.filename f.contents,
    writeEntry_fileFail_iff base fso f.filename f.contents,
    fun e he => writeFilesList_cons_abort base fso f fs e he⟩
  rw [writeEntry_invalidPath_iff]
  simp

/-- Filesystem oracle of the C6 witness: directory creation always fails. -/
def noDirFs : FsOracle :=
  FsOracle.mk (fun _ => false) (fun _ => true) (fun _ => true)

/-- C6 witness: with an oracle on which directory creation fails, a two-entry
list aborts on the first entry with DirectoryCreateFailed, ignoring the
second entry. -/
theorem c6_write_failure_modes_witness :
    writeFilesList ("b").data noDirFs
        [ManifestFile.mk ("f").data ("x").data,
         ManifestFile.mk ("g").data ("y").data] =
      ((writeEntry ("b").data noDirFs ("f").data ("x").data).fst,
        some (RunError.dirCreateFailed ("b").data)) :=
  (c6_write_failure_modes ("b").data noDirFs
      (ManifestFile.mk ("f").data ("x").data)
      [ManifestFile.mk ("g").data ("y").data]).2.2.2
    (RunError.dirCreateFailed ("b").data) (by decide)

theorem piecesFuel_any_ne_dot :
    ∀ (fuel : Nat) (s : Str), s.length ≤ fuel →
      (∃ c ∈ s, c ≠ '/' ∧ c ≠ '.') →
      (piecesFuel fuel s).any (fun p => !decide (p = ['.'])) = true := by
  intro fuel
  induction fuel with
  | zero =>
    intro s hf hex
    obtain ⟨c0, hc0, _⟩ := hex
    have : s = [] := List.eq_nil_of_length_eq_zero (Nat.le_zero.mp hf)
    subst this
    simp at hc0
  | succ n ih =>
    intro s hf hex
    obtain ⟨c0, hc0, hcn⟩ := hex
    cases s with
    | nil => simp at hc0
    | cons c rest =>
      simp only [List.length_cons, Nat.succ_le_succ_iff] at hf
      by_cases hcs : c = '/'
      · have hc0rest : c0 ∈ rest := by
          rcases List.mem_cons.mp hc0 with h | h
          · subst h; exact absurd hcs hcn.1
          · exact h
        simp only [piecesFuel, if_pos hcs]
        exact ih rest hf ⟨c0, hc0rest, hcn⟩
      · simp only [piecesFuel, if_neg hcs, List.any_cons, Bool.or_eq_true]
        by_cases hdot : c = '.'
        · have hc0rest : c0 ∈ rest := by
            rcases List.mem_cons.mp hc0 with h | h
            · subst h; exact absurd hdot hcn.2
            · exact h
          have hc0split : c0 ∈ rest.takeWhile (fun d => !decide (d = '/')) ∨
              c0 ∈ rest.dropWhile (fun d => !decide (d = '/')) := by
            rw [← List.takeWhile_append_dropWhile
              (p := fun d => !decide (d = '/')) (l := rest)] at hc0rest
            exact List.mem_append.mp hc0rest
          rcases hc0split with htw | hdw
          · left
            have hne : c :: rest.takeWhile (fun d => !decide (d = '/')) ≠ ['.'] := by
              intro heq
              rw [List.cons.injEq] at heq
              rw [heq.2] at htw
              simp at htw
            simp [hne]
          · right
            have hlen : (rest.dropWhile (fun d => !decide (d = '/'))).length ≤ n :=
              le_trans (List.dropWhile_sublist _).length_le hf
            exact ih _ hlen ⟨c0, hdw, hcn⟩
        · left
          have hne : c :: rest.takeWhile (fun d => !decide (d = '/')) ≠ ['.'] := by
            intro heq
            rw [List.cons.injEq] at heq
            exact hdot heq.1
          simp [hne]

theorem pathHasParent_of_real (s : Str)
    (h : ∃ c ∈ s, c ≠ '/' ∧ c ≠ '.') : pathHasParent s = true := by
  unfold pathHasParent pathPieces
  have hx := piecesFuel_any_ne_dot s.length s (le_refl _) h
  simp [hx]

theorem pathParent_some_of_real (base fn : Str)
    (h : ∃ c ∈ base, c ≠ '/' ∧ c ≠ '.') :
    ∃ parent, pathParent (base ++ '/' :: fn) = some parent := by
  have hreal : ∃ c ∈ base ++ '/' :: fn, c ≠ '/' ∧ c ≠ '.' := by
    obtain ⟨c, hc, hcn⟩ := h
    exact ⟨c, List.mem_append.mpr (Or.inl hc), hcn⟩
  have hp := pathHasParent_of_real _ hreal
  unfold pathParent
  rw [if_pos hp]
  exact ⟨_, rfl⟩

theorem writeEntry_no_invalidPath (base : Str) (fso : FsOracle) (fn data : Str)
    (h : ∃ parent, pathParent (base ++ '/' :: fn) = some parent) :
    ∀ p, (writeEntry base fso fn data).snd ≠ some (RunError.invalidPath p) := by
  intro p hcontra
  rw [writeEntry_invalidPath_iff] at hcontra
  obtain ⟨parent, hp⟩ := h
  rw [hp] at hcontra
  simp at hcontra

theorem writeFilesList_cons_ok (base : Str) (fso : FsOracle) (f : ManifestFile)
    (fs : List ManifestFile)
    (h : (writeEntry base fso f.filename f.contents).snd = none) :
    writeFilesList base fso (f :: fs) =
      ((writeEntry base fso f.filename f.contents).fst ++
          (writeFilesList base fso fs).fst,
        (writeFilesList base fso fs).snd) := by
  rcases hE : writeEntry base fso f.filename f.contents with ⟨evs, err⟩
  rw [hE] at h
  simp only at h
  subst h
  conv_lhs => unfold writeFilesList
  rw [hE]

theorem writeFilesList_no_invalidPath (base : Str) (fso : FsOracle)
    (hpp : ∀ fn : Str, ∃ parent, pathParent (base ++ '/' :: fn) = some parent) :
    ∀ (l : List ManifestFile) (p : Str),
      (writeFilesList base fso l).snd ≠ some (RunError.invalidPath p) := by
  intro l
  induction l with
  | nil =>
    intro p h
    simp [writeFilesList] at h
  | cons f fs ih =>
    intro p h
    cases herr : (writeEntry base fso f.filename f.contents).snd with
    | some e =>
      rw [writeFilesList_cons_abort base fso f fs e herr] at h
      simp only at h
      rw [h] at herr
      exact writeEntry_no_invalidPath base fso f.filename f.contents
        (hpp f.filename) p herr
    | none =>
      rw [writeFilesList_cons_ok base fso f fs herr] at h
      exact ih p h

theorem fetchRefsList_cons_err (base : Str) (net : NetOracle) (fso : FsOracle)
    (r : ManifestFileRef) (rs : List ManifestFileRef) (e : RunError)
    (h : (fetchOneRef base net fso r).snd = some e) :
    fetchRefsList base net fso (r :: rs) =
      ((fetchOneRef base net fso r).fst, some e) := by
  rcases hE : fetchOneRef base net fso r with ⟨evs, err⟩
  rw [hE] at h
  simp only at h
  subst h
  unfold fetchRefsList
  rw [hE]

theorem fetchRefsList_cons_ok (base : Str) (net : NetOracle) (fso : FsOracle)
    (r : ManifestFileRef) (rs : List ManifestFileRef)
    (h : (fetchOneRef base net fso r).snd = none) :
    fetchRefsList base net fso (r :: rs) =
      ((fetchOneRef base net fso r).fst ++ (fetchRefsList base net fso rs).fst,
        (fetchRefsList base net fso rs).snd) := by
  rcases hE : fetchOneRef base net fso r with ⟨evs, err⟩
  rw [hE] at h
  simp only at h
  subst h
  conv_lhs => unfold fetchRefsList
  rw [hE]

theorem fetchOneRef_no_invalidPath (base : Str) (net : NetOracle)
    (fso : FsOracle) (r : ManifestFileRef)
    (h : ∃ parent, pathParent (base ++ '/' :: r.filename) = some parent) :
    ∀ p, (fetchOneRef base net fso r).snd ≠ some (RunError.invalidPath p) := by
  intro p
  unfold fetchOneRef
  cases hg : net.get r.url with
  | none => simp
  | some resp =>
    by_cases hs : statusIsSuccess resp.status
    · cases hb : resp.body with
      | none => simp [hs, hb]
      | some bytes =>
        simp only [hs, if_true, hb]
        intro hc
        exact writeEntry_no_invalidPath base fso r.filename bytes h p
          (by simpa using hc)
    · simp [hs]

theorem fetchRefsList_no_invalidPath (base : Str) (net : NetOracle)
    (fso : FsOracle)
    (hpp : ∀ fn : Str, ∃ parent, pathParent (base ++ '/' :: fn) = some parent) :
    ∀ (l : List ManifestFileRef) (p : Str),
      (fetchRefsList base net fso l).snd ≠ some (RunError.invalidPath p) := by
  intro l
  induction l with
  | nil =>
    intro p h
    simp [fetchRefsList] at h
  | cons r rs ih =>
    intro p h
    cases herr : (fetchOneRef base net fso r).snd with
    | some e =>
      rw [fetchRefsList_cons_err base net fso r rs e herr] at h
      simp only at h
      rw [h] at herr
      exact fetchOneRef_no_invalidPath base net fso r
        (hpp r.filename) p herr
    | none =>
      rw [fetchRefsList_cons_ok base net fso r rs herr] at h
      exact ih p h

/-- C9 counterexample: the base directory consisting of one slash is
non-empty, yet for the entry with the empty filename the computed path is a
double slash, which has no parent, and the materializer does fail with
InvalidPath — the claim over every non-empty base directory is false. -/
theorem c9_counterexample :
    (['/'] : Str) ≠ [] ∧
    (writeFilesList ['/'] allOkFs [ManifestFile.mk [] []]).snd =
      some (RunError.invalidPath ['/', '/']) := by
  constructor
  · decide
  · decide

/-- C9 (amended): for every base directory containing at least one character
other than a slash and a dot, every destination path built as base, slash,
filename has a parent component, and neither the inline materializer nor the
reference downloader can fail with InvalidPath. -/
theorem c9_no_invalid_path (base : Str)
    (hb : ∃ c ∈ base, c ≠ '/' ∧ c ≠ '.') (m : FontManifest) (net : NetOracle)
    (fso : FsOracle) :
    (∀ fn : Str, (pathParent (base ++ '/' :: fn)).isSome = true) ∧
    (∀ p, (m.write_files base fso).snd ≠ some (RunError.invalidPath p)) ∧
    (∀ p, (m.fetch_files_from_refs base net fso).snd ≠
      some (RunError.invalidPath p)) := by
  have hpp : ∀ fn : Str, ∃ parent, pathParent (base ++ '/' :: fn) = some parent :=
    fun fn => pathParent_some_of_real base fn hb
  refine ⟨fun fn => ?_,
    fun p => writeFilesList_no_invalidPath base fso hpp m.files p,
    fun p => fetchRefsList_no_invalidPath base net fso hpp m.file_refs p⟩
  obtain ⟨parent, hp⟩ := hpp fn
  simp [hp]

/-- C9 witness: the amended theorem evaluated at a concrete base directory
and a one-file manifest. -/
theorem c9_no_invalid_path_witness :
    (∃ c ∈ ("b").data, c ≠ '/' ∧ c ≠ '.') ∧
    ((FontManifest.mk [ManifestFile.mk ("f").data []] []).write_files
        ("b").data allOkFs).snd ≠ some (RunError.invalidPath ("b/f").data) :=
  ⟨by decide,
    (c9_no_invalid_path ("b").data (by decide)
      (FontManifest.mk [ManifestFile.mk ("f").data []] []) allOkNet
      allOkFs).2.1 ("b/f").data⟩

/-- C5: when the requested name list is non-empty and at least one name
fails catalog validation, the run checks every requested name against the
specimen endpoint, stops with InvalidFontName carrying exactly the list of
all names that fail validation (in request order), and never requests the
manifest. -/
theorem c5_collects_all_invalid (env : Env) (base : Str) (args : List Str)
    (hne : args ≠ [])
    (hinv : args.filter
      (fun a => !(FontManifest.check_if_valid_font env.net a)) ≠ []) :
    mainRun env base args =
      (args.map (fun a => Ev.specimenRequested (specimenUrl a)),
        some (RunError.invalidFontName (args.filter
          (fun a => !(FontManifest.check_if_valid_font env.net a))))) ∧
    (∀ u, Ev.manifestRequested u ∉ (mainRun env base args).fst) ∧
    (∀ a, a ∈ args.filter
        (fun a => !(FontManifest.check_if_valid_font env.net a)) ↔
      (a ∈ args ∧ FontManifest.check_if_valid_font env.net a = false)) := by
  have hmain : mainRun env base args =
      (args.map (fun a => Ev.specimenRequested (specimenUrl a)),
        some (RunError.invalidFontName (args.filter
          (fun a => !(FontManifest.check_if_valid_font env.net a))))) := by
    unfold mainRun
    rw [if_neg (by simpa using hne)]
    rw [if_pos (by simpa using hinv)]
  refine ⟨hmain, ?_, ?_⟩
  · intro u hu
    rw [hmain] at hu
    simp only [List.mem_map] at hu
    obtain ⟨a, _, hcontra⟩ := hu
    exact Ev.noConfusion hcontra
  · intro a
    rw [List.mem_filter]
    simp

/-- Network oracle of the C5 witness: the specimen request for the name Bad
gets a 404, every other request succeeds with an empty body. -/
def c5Net : NetOracle :=
  NetOracle.mk (fun u =>
    if u = specimenUrl ("Bad").data then some (HttpResp.mk 404 (some []))
    else some (HttpResp.mk 200 (some [])))

/-- Environment of the C5 witness. -/
def c5Env : Env := Env.mk c5Net allOkFs (fun _ => none)

/-- C5 witness: with the names Good and Bad where only Bad fails validation,
the run requests both specimen pages and stops with InvalidFontName listing
exactly the name Bad. -/
theorem c5_collects_all_invalid_witness :
    mainRun c5Env ("b").data [("Good").data, ("Bad").data] =
      ([("Good").data, ("Bad").data].map
          (fun a => Ev.specimenRequested (specimenUrl a)),
        some (RunError.invalidFontName ([("Good").data, ("Bad").data].filter
          (fun a => !(FontManifest.check_if_valid_font c5Env.net a))))) :=
  (c5_collects_all_invalid c5Env ("b").data [("Good").data, ("Bad").data]
    (by decide) (by decide)).1

theorem writeEntry_no_ref (base : Str) (fso : FsOracle) (fn data : Str) :
    ∀ e ∈ (writeEntry base fso fn data).fst, ∀ u, e ≠ Ev.refRequested u := by
  cases hp : pathParent (base ++ '/' :: fn) with
  | none => rw [writeEntry_eq_invalid base fso fn data hp]; simp
  | some parent =>
    by_cases h1 : fso.createDirOk parent
    · by_cases h2 : fso.createFileOk (base ++ '/' :: fn)
      · by_cases h3 : fso.writeOk (base ++ '/' :: fn)
        · rw [writeEntry_eq_ok base fso fn data parent hp h1 h2 h3]
          intro e he u
          simp only [List.mem_cons, List.not_mem_nil, or_false] at he
          rcases he with rfl | rfl | rfl <;> simp
        · rw [writeEntry_eq_writeFail base fso fn data parent hp h1 h2
            (by simpa using h3)]
          intro e he u
          simp only [List.mem_cons, List.not_mem_nil, or_false] at he
          rcases he with rfl | rfl <;> simp
      · rw [writeEntry_eq_createFail base fso fn data parent hp h1
          (by simpa using h2)]
        intro e he u
        simp only [List.mem_cons, List.not_mem_nil, or_false] at he
        rcases he with rfl
        simp
    · rw [writeEntry_eq_dirFail base fso fn data parent hp (by simpa using h1)]
      intro e he
      simp at he

theorem writeFilesList_no_ref (base : Str) (fso : FsOracle) :
    ∀ (l : List ManifestFile), ∀ e ∈ (writeFilesList base fso l).fst,
      ∀ u, e ≠ Ev.refRequested u := by
  intro l
  induction l with
  | nil =>
    intro e he
    simp [writeFilesList] at he
  | cons f fs ih =>
    intro e he u
    cases herr : (writeEntry base fso f.filename f.contents).snd with
    | some er =>
      rw [writeFilesList_cons_abort base fso f fs er herr] at he
      simp only at he
      exact writeEntry_no_ref base fso f.filename f.contents e he u
    | none =>
      rw [writeFilesList_cons_ok base fso f fs herr] at he
      simp only at he
      rcases List.mem_append.mp he with h1 | h2
      · exact writeEntry_no_ref base fso f.filename f.contents e h1 u
      · exact ih e h2 u

theorem writeFilesList_success_mem (base : Str) (fso : FsOracle) :
    ∀ (l : List ManifestFile), (writeFilesList base fso l).snd = none →
      ∀ f ∈ l, Ev.fileWritten (base ++ '/' :: f.filename) f.contents ∈
        (writeFilesList base fso l).fst := by
  intro l
  induction l with
  | nil =>
    intro _ f hf
    simp at hf
  | cons g gs ih =>
    intro hs f hf
    cases herr : (writeEntry base fso g.filename g.contents).snd with
    | some er =>
      rw [writeFilesList_cons_abort base fso g gs er herr] at hs
      simp at hs
    | none =>
      rw [writeFilesList_cons_ok base fso g gs herr] at hs ⊢
      simp only at hs ⊢
      rcases List.mem_cons.mp hf with heq | hf2
      · subst heq
        obtain ⟨parent, hp, hfst⟩ :=
          writeEntry_success_shape base fso f.filename f.contents herr
        refine List.mem_append.mpr (Or.inl ?_)
        rw [hfst]
        simp
      · exact List.mem_append.mpr (Or.inr (ih hs f hf2))

/-- C8: in every successful run the trace decomposes as a prefix of
validation and manifest events, then the full inline-write trace, then the
reference-download trace; the part before the reference trace contains no
reference request, and it contains the write event of every inline file of
the transformed manifest — all inline files are materialized before any
reference download is issued. -/
theorem c8_inline_before_refs (env : Env) (base : Str) (args : List Str)
    (evs : List Ev) (h : mainRun env base args = (evs, none)) :
    ∃ (pre : List Ev) (m : FontManifest),
      (m.write_files base env.fso).snd = none ∧
      evs = pre ++ (m.write_files base env.fso).fst ++
        (m.fetch_files_from_refs base env.net env.fso).fst ∧
      (∀ e ∈ pre ++ (m.write_files base env.fso).fst, ∀ u,
        e ≠ Ev.refRequested u) ∧
      (∀ f ∈ m.files, Ev.fileWritten (base ++ '/' :: f.filename) f.contents ∈
        (m.write_files base env.fso).fst) := by
  simp only [mainRun] at h
  split at h
  · simp at h
  · split at h
    · simp at h
    · split at h
      · simp at h
      next resp hresp =>
        split at h
        · simp at h
        next text htext =>
          split at h
          · simp at h
          next wrapper hwrap =>
            split at h
            · simp at h
            next hw =>
              rw [Prod.mk.injEq] at h
              obtain ⟨hevs, _⟩ := h
              refine ⟨args.map (fun a => Ev.specimenRequested (specimenUrl a)) ++
                [Ev.manifestRequested (downloadListUrl args)],
                mainManifestTransform args wrapper.manifest, hw, ?_, ?_, ?_⟩
              · rw [← hevs]
              · intro e he u
                rcases List.mem_append.mp he with h1 | h2
                · rcases List.mem_append.mp h1 with h3 | h4
                  · obtain ⟨a, _, rfl⟩ := List.mem_map.mp h3
                    simp
                  · rcases List.mem_cons.mp h4 with rfl | h5
                    · simp
                    · simp at h5
                · exact writeFilesList_no_ref base env.fso _ e h2 u
              · intro f hf
                exact writeFilesList_success_mem base env.fso _ hw f hf

/-- Network oracle of the C8 witness: every GET succeeds with status 200 and
a one-byte body. -/
def c8Net : NetOracle :=
  NetOracle.mk (fun _ => some (HttpResp.mk 200 (some ("x").data)))

/-- Decoded wrapper of the C8 witness: one inline file and one reference. -/
def c8Wrapper : FontManifestWrapper :=
  FontManifestWrapper.mk ("z").data
    (FontManifest.mk [ManifestFile.mk ("f").data ("c").data]
      [ManifestFileRef.mk ("g").data ("u").data])

/-- Environment of the C8 witness. -/
def c8Env : Env := Env.mk c8Net allOkFs (fun _ => some c8Wrapper)

/-- C8 witness: the theorem applied to a concrete successful run with one
inline file and one reference. -/
theorem c8_inline_before_refs_witness :
    ∃ (pre : List Ev) (m : FontManifest),
      (m.write_files ("b").data c8Env.fso).snd = none ∧
      (mainRun c8Env ("b").data [("A").data]).fst =
        pre ++ (m.write_files ("b").data c8Env.fso).fst ++
          (m.fetch_files_from_refs ("b").data c8Env.net c8Env.fso).fst ∧
      (∀ e ∈ pre ++ (m.write_files ("b").data c8Env.fso).fst, ∀ u,
        e ≠ Ev.refRequested u) ∧
      (∀ f ∈ m.files, Ev.fileWritten (("b").data ++ '/' :: f.filename)
          f.contents ∈ (m.write_files ("b").data c8Env.fso).fst) :=
  c8_inline_before_refs c8Env ("b").data [("A").data]
    (mainRun c8Env ("b").data [("A").data]).fst (by decide)
